import Mathlib

/-!
Shallow embedding of the segmented-file storage engine from the
`kadirahq/go-tools` repository (packages `segfile`, `segments`,
`fsutils`, `fnutils`, `hybrid`) together with proofs about it.

Go `int64` values are modelled as `Int`; Go's truncated division and
remainder (`/`, `%`) are `Int.tdiv` / `Int.tmod`.  Byte slices are
`List Int` (segment payloads) or `List Nat` (wire-level bytes).
-/

namespace GoTools

/-- Go integer division (`/` on `int64`): truncation toward zero. -/
def goDiv (a b : Int) : Int := a.tdiv b

/-- Go integer remainder (`%` on `int64`): sign follows the dividend. -/
def goMod (a b : Int) : Int := a.tmod b

/-- Result of the `calcRange` helper of `segfile`: start/end segment
indices and start/end offsets within those segments. -/
structure Range4 where
  sseg : Int
  soff : Int
  eseg : Int
  eoff : Int
deriving Repr, DecidableEq

/-- Embedding of `calcRange(fsize, size, off)` from `segfile`
(segfile.go): start/end segment and offsets, with the adjustment
applied when `(size+off) mod fsize == 0`. -/
def calcRange (fsize size off : Int) : Range4 :=
  let sseg := goDiv off fsize
  let soff := goMod off fsize
  let eseg := goDiv (size + off) fsize
  let eoff := goMod (size + off) fsize
  if eoff = 0 then ⟨sseg, soff, eseg - 1, fsize⟩ else ⟨sseg, soff, eseg, eoff⟩

/-- Embedding of `Bounds(size, start, end, fn)` from `segments/segments.go`,
restricted to the boundary arithmetic: the same start/end segment
indices and offsets handed to the callback. -/
def boundsRange (size start stop : Int) : Range4 :=
  let ss := goDiv start size
  let so := goMod start size
  let es := goDiv stop size
  let eo := goMod stop size
  if eo = 0 then ⟨ss, so, es - 1, size⟩ else ⟨ss, so, es, eo⟩

/-- Membership of a global byte position `x` in the sub-range that the
decomposition `r` assigns to segment `i`: `[soff, S)` on the first
segment, `[0, S)` on middle segments, `[0, eoff)` on the last. -/
def inSpan (r : Range4) (S i x : Int) : Prop :=
  r.sseg ≤ i ∧ i ≤ r.eseg ∧
    (if i = r.sseg then r.soff else 0) ≤ x - i * S ∧
    x - i * S < (if i = r.eseg then r.eoff else S)

instance (r : Range4) (S i x : Int) : Decidable (inSpan r S i x) := by
  unfold inSpan; infer_instance

/-- Run of `n` consecutive integers starting at `a`. -/
def intRangeAux (a : Int) : Nat → List Int
  | 0 => []
  | n + 1 => a :: intRangeAux (a + 1) n

/-- Inclusive range of integers `a..b` (empty when `b < a`): the index
sequence of the `for i := a; i <= b; i++` loops in the source. -/
def intRange (a b : Int) : List Int := intRangeAux a (b + 1 - a).toNat

/-- Error values of the embedded packages (`segfile`, `fsutils`). -/
inductive Err where
  | segSz | opts | mdata | corrupt | param | ronly | closed | readSz | writeSz | eof | sys
deriving Repr, DecidableEq

/-- Persisted metadata record: the three scalar fields stored by the
`segfile` Metadata (`Segs`, `Size`, `Used`). -/
structure MetaRec where
  segs : Int
  size : Int
  used : Int
deriving Repr, DecidableEq

/-- In-memory state of a `segfile.file` (segfile.go): options-derived
configuration, metadata, segment count, stream offset, flags and the
bytes stored in the segment files (`data i j` is byte `j` of segment
`i`). -/
structure SegFile where
  fsize : Int
  pthresh : Int
  ronly : Bool
  closed : Bool
  palloc : Bool
  offset : Int
  meta : MetaRec
  nsegs : Int
  data : Int → Int → Int

/-- Size of `f.meta.used` as reported by `file.Size()`: zero when the
file is closed. -/
def size (f : SegFile) : Int :=
  if f.closed then 0 else f.meta.used

/-- Sub-ranges visited by the read/write loops of `segfile`: one triple
`(i, start, stop)` per segment from `a` to `b`, with start offset `so`
on the first segment and end offset `eo` on the last. -/
def spanList (S so eo a b : Int) : List (Int × Int × Int) :=
  (intRange a b).map fun i => (i, if i = a then so else 0, if i = b then eo else S)

/-- Bytes copied out of the segment files by the `ReadAt` loop, in
stream order. -/
def readBytes (f : SegFile) (spans : List (Int × Int × Int)) : List Int :=
  spans.flatMap fun s => (intRange s.2.1 (s.2.2 - 1)).map fun j => f.data s.1 j

/-- Embedding of `file.ReadAt(p, off)` (segfile.go): the buffer is
`none` for a nil slice and `some len` otherwise, and the result is the
returned byte count together with the bytes copied from the segments.
`ReadAt` does not mutate any `file` state. -/
def readAt (f : SegFile) (p : Option Nat) (off : Int) : Except Err (Int × List Int) :=
  if f.closed then .error .closed
  else if p = none ∨ off < 0 then .error .param
  else
    let sz : Int := Int.ofNat (p.getD 0)
    if sz = 0 then .ok (0, [])
    else
      let r := calcRange f.fsize sz off
      let segs := f.meta.segs
      if r.sseg ≥ segs then .error .eof
      else if r.eseg ≥ segs then
        let eseg := segs - 1
        let segmentsRead := eseg - r.sseg
        let fromFirstSeg := f.fsize - r.soff
        let n := f.fsize * segmentsRead + fromFirstSeg
        .ok (n, readBytes f (spanList f.fsize r.soff f.fsize r.sseg eseg))
      else
        .ok (sz, readBytes f (spanList f.fsize r.soff r.eoff r.sseg r.eseg))

/-- Final size of the file produced by `fsutils.EnsureFile(fpath, sz)`
(fsutils.go) for a file whose current size is `init`: when smaller than
`sz` the file is zero-filled through `ZeroFill` in 1 MiB chunks. The
chunked write offsets are reproduced exactly (including the tail write
at `ChunkSize*chunks`), and the resulting size is the largest byte
position written. -/
def ensureFileSz (init sz : Int) : Int :=
  if init ≥ sz then init
  else
    let C : Int := 1024 * 1024
    let fill := sz - init
    let chunks := goDiv fill C
    let tail := goMod fill C
    let loopEnd := if 0 < chunks then init + C * chunks else init
    let tailEnd := C * chunks + tail
    max init (max loopEnd tailEnd)

/-- Embedding of `file.ensureOffset(off)` (segfile.go): computes the
number of segments needed to hold byte `off-1`, creates the missing
segment files through `fsutils.EnsureFile` (each requested with size
`f.fsize`), publishes the new segment list and stores the new count in
the metadata. The returned list holds the resulting on-disk size of
each newly created segment file. -/
def ensureOffset (f : SegFile) (off : Int) : Except Err (SegFile × List Int) :=
  if f.closed then .error .closed
  else
    let need0 := goDiv off f.fsize
    let need := if goMod off f.fsize ≠ 0 then need0 + 1 else need0
    let haveSegs := f.nsegs
    if need - haveSegs ≤ 0 then .ok (f, [])
    else
      let created := (intRange haveSegs (need - 1)).map fun _ => ensureFileSz 0 f.fsize
      .ok ({ f with
              nsegs := need
              meta := { f.meta with segs := need }
              data := fun i j => if haveSegs ≤ i then 0 else f.data i j },
           created)

/-- Embedding of `file.updateSize(off)` (segfile.go): raises
`meta.used` to `off` when larger, unless the file was closed. -/
def updateSize (f : SegFile) (off : Int) : SegFile :=
  if f.closed then f
  else if off > f.meta.used then { f with meta := { f.meta with used := off } } else f

/-- Result of `file.WriteAt`: the state after the call, the returned
value, the sizes of segment files created synchronously by
`ensureOffset`, and whether a background pre-allocation was started. -/
structure WriteOut where
  st : SegFile
  res : Except Err Int
  created : List Int
  spawned : Bool

/-- Embedding of `file.WriteAt(p, off)` (segfile.go): validation,
synchronous allocation via `ensureOffset`, the copy loop over
`calcRange` sub-ranges, `updateSize`, and the CAS-guarded start of a
background pre-allocation. The returned count is `int(srce)` of the
last loop iteration, exactly as in the source. -/
def writeAt (f : SegFile) (p : Option (List Int)) (off : Int) : WriteOut :=
  if f.closed then ⟨f, .error .closed, [], false⟩
  else if f.ronly then ⟨f, .error .ronly, [], false⟩
  else if p = none ∨ off < 0 then ⟨f, .error .param, [], false⟩
  else
    let bytes := p.getD []
    let sz : Int := Int.ofNat bytes.length
    if sz = 0 then ⟨f, .ok 0, [], false⟩
    else
      let dend := off + sz
      match ensureOffset f dend with
      | .error e => ⟨f, .error e, [], false⟩
      | .ok (f1, created) =>
        let r := calcRange f1.fsize sz off
        let f2 : SegFile :=
          { f1 with data := fun i j =>
              if r.sseg ≤ i ∧ i ≤ r.eseg ∧
                 (if i = r.sseg then r.soff else 0) ≤ j ∧
                 j < (if i = r.eseg then r.eoff else f1.fsize)
              then bytes.getD (i * f1.fsize + j - off).toNat 0
              else f1.data i j }
        let n := r.eseg * f1.fsize + r.eoff - off
        let f3 := updateSize f2 dend
        ⟨{ f3 with palloc := true }, .ok n, created, !f3.palloc⟩

/-- Embedding of `file.Seek(offset, whence)` (segfile.go): whence 0
stores the given offset, whence 1 adds it to the stream offset, and
whence 2 adds `offset + meta.Used()` to the stream offset. -/
def seek (f : SegFile) (offset : Int) (whence : Int) : SegFile × Except Err Int :=
  if f.closed then (f, .error .closed)
  else if whence = 0 then ({ f with offset := offset }, .ok offset)
  else if whence = 1 then ({ f with offset := f.offset + offset }, .ok (f.offset + offset))
  else if whence = 2 then
    ({ f with offset := f.offset + (offset + f.meta.used) },
     .ok (f.offset + (offset + f.meta.used)))
  else (f, .ok 0)

/-- Ceiling division as written in the specification. -/
def ceilDiv (a b : Int) : Int := (a + b - 1) / b

/-- Little-endian digits: `natToLE w v` is the `w`-byte little-endian
encoding of `v mod 256^w`. -/
def natToLE : Nat → Nat → List Nat
  | 0, _ => []
  | w + 1, v => v % 256 :: natToLE w (v / 256)

/-- Value of a little-endian byte string. -/
def leToNat : List Nat → Nat
  | [] => 0
  | b :: bs => b + 256 * leToNat bs

/-- Wire-level bytes of a Go `int64` value: the 8-byte little-endian
two's-complement representation. This is the byte image produced by the
`hybrid` scalar store on a little-endian target, which is the wire
contract of the codec. -/
def int64LE (v : Int) : List Nat := natToLE 8 (v % 2 ^ 64).toNat

/-- Embedding of `hybrid.DecodeInt64(d, &v)` (hybrid/int64.go) at the
wire level: read the first 8 bytes of `d` as a little-endian
two's-complement `int64`. -/
def decodeInt64 (d : List Nat) : Int :=
  let u := leToNat (d.take 8)
  if u < 2 ^ 63 then (u : Int) else (u : Int) - 2 ^ 64

/-- Embedding of `hybrid.EncodeInt64(d, &v)` (hybrid/int64.go) at the
wire level: store the 8-byte little-endian image of `v` into the first
8 bytes of `d`, leaving the rest of `d` unchanged. -/
def encodeInt64 (d : List Nat) (v : Int) : List Nat := int64LE v ++ d.drop 8

/-- Modelled from the spec: the flatbuffer-generated accessor package
`segfile/metadata` used by `segfile/metadata.go` is not part of the
sources; the metadata record wire format is taken from the
specification, which fixes three signed 64-bit little-endian fields —
`segment_count` at byte offset 0, `segment_size` at offset 8,
`used_bytes` at offset 16. `metaBytes` is the persisted image of a
metadata record. -/
def metaBytes (m : MetaRec) : List Nat := int64LE m.segs ++ (int64LE m.size ++ int64LE m.used)

/-- Modelled from the spec: `Metadata.SetSegs(v)` as an in-place scalar
store of `v` at byte offset 0 of the persisted image. -/
def setSegs (b : List Nat) (v : Int) : List Nat := int64LE v ++ b.drop 8

/-- Modelled from the spec: `Metadata.SetSize(v)` as an in-place scalar
store of `v` at byte offset 8 of the persisted image. -/
def setSize (b : List Nat) (v : Int) : List Nat := b.take 8 ++ (int64LE v ++ b.drop 16)

/-- Modelled from the spec: `Metadata.SetUsed(v)` as an in-place scalar
store of `v` at byte offset 16 of the persisted image. -/
def setUsed (b : List Nat) (v : Int) : List Nat := b.take 16 ++ (int64LE v ++ b.drop 24)

/-- Signed 64-bit little-endian field read at byte offset `k`. -/
def readI64At (b : List Nat) (k : Nat) : Int := decodeInt64 (b.drop k)

/-- Options passed to `segfile.New` (segfile.go): whether `Path` is
non-empty, the requested `FileSize`, and the two mode flags. -/
structure GoOpts where
  pathOk : Bool
  fileSize : Int
  memoryMap : Bool
  readOnly : Bool
deriving Repr, DecidableEq

/-- On-disk state of a SegFile directory before `New`: the persisted
metadata record if the metadata file exists, the sizes of the segment
files present (index order), and their contents. -/
structure Disk where
  mdata : Option MetaRec
  segsizes : List Int
  content : Int → Int → Int

/-- Default `FileSize` used by `segfile.New` when the option is zero. -/
def defaultFileSize : Int := 20 * 1024 * 1024

/-- Embedding of `NewMetadata(path, sz)` (segfile/metadata.go): a fresh
metadata file starts from the zeroed template and gets `Size` set to
`sz`; an existing file keeps its persisted fields, with `Size` set to
`sz` only when the persisted value is zero. -/
def newMetadata (m : Option MetaRec) (sz : Int) : MetaRec :=
  match m with
  | none => { segs := 0, size := sz, used := 0 }
  | some old => if old.size = 0 then { old with size := sz } else old

/-- Embedding of `segfile.New(options)` (segfile.go): option
validation and defaulting, metadata creation/loading, metadata
validation, segment loading with per-file size validation against the
persisted `Size`, construction of the `file` value (note `fsize` is
taken from `options.FileSize`), and the synchronous initial
pre-allocation `f.preallocate(f.pthresh)` whose error is swallowed. -/
def newSegFile (o : GoOpts) (d : Disk) : Except Err SegFile :=
  if o.pathOk = false ∨ o.fileSize < 0 then .error .opts
  else
    let fileSize := if o.fileSize = 0 then defaultFileSize else o.fileSize
    let mres : Except Err MetaRec :=
      if o.readOnly then
        match d.mdata with
        | none => .error .sys
        | some m => .ok m
      else .ok (newMetadata d.mdata fileSize)
    match mres with
    | .error e => .error e
    | .ok meta =>
      if meta.size < 0 ∨ meta.segs < 0 ∨ meta.used < 0 ∨ meta.used > meta.segs * meta.size then
        .error .mdata
      else if ¬ ((List.range meta.segs.toNat).all
          fun i => d.segsizes.getD i 0 = meta.size) then .error .segSz
      else
        let f : SegFile :=
          { fsize := fileSize
            pthresh := goDiv fileSize 2
            ronly := o.readOnly
            closed := false
            palloc := false
            offset := 0
            meta := meta
            nsegs := meta.segs
            data := d.content }
        match ensureOffset f (goDiv fileSize 2) with
        | .ok (g, _) => .ok g
        | .error _ => .ok f

/-- Persisted on-disk state used for the C5 evaluation: a store created
with segment size 10, holding one 10-byte segment. -/
def c5Disk : Disk := { mdata := some ⟨1, 10, 0⟩, segsizes := [10], content := fun _ _ => 0 }

/-- Reopen options used for the C5 evaluation: same directory, but a
requested segment size of 20. -/
def c5Opts : GoOpts := { pathOk := true, fileSize := 20, memoryMap := false, readOnly := false }

/-- Open stream state used for the C7 evaluation: stream offset 5,
`used_bytes` 10. -/
def c7St : SegFile :=
  { fsize := 10, pthresh := 5, ronly := false, closed := false, palloc := false,
    offset := 5, meta := ⟨1, 10, 10⟩, nsegs := 1, data := fun _ _ => 0 }

/-- Read-only open SegFile used by the C10 counterexample. -/
def roSt : SegFile :=
  { fsize := 10, pthresh := 5, ronly := true, closed := false, palloc := false,
    offset := 0, meta := ⟨0, 10, 0⟩, nsegs := 0, data := fun _ _ => 0 }

/-- Events of the FlushGroup transition system (`fnutils/group.go`):
runner `r` performing the four lock operations of `Group.Run`, and the
flusher performing the five operations of `Group.Flush` (acquire the
secondary lock, run the payload, release the primary lock, reacquire
the primary lock, release the secondary lock). -/
inductive Ev where
  | rSecRLock : Nat → Ev
  | rSecRUnlock : Nat → Ev
  | rPriRLock : Nat → Ev
  | rPriRUnlock : Nat → Ev
  | fSecLock : Ev
  | fPayload : Ev
  | fPriUnlock : Ev
  | fPriLock : Ev
  | fSecUnlock : Ev
deriving Repr, DecidableEq

/-- Program counter of a `Run` caller: the next lock operation it will
perform; `done` means `Run` has returned. -/
inductive RPC where
  | secRLock
  | secRUnlock
  | priRLock
  | priRUnlock
  | done
deriving Repr, DecidableEq

/-- Program counter of the flusher inside `Flush`; it loops back to
`secLock` after `secUnlock`, matching the periodic flusher task. -/
inductive FPC where
  | secLock
  | payload
  | priUnlock
  | priLock
  | secUnlock
deriving Repr, DecidableEq

/-- State of one `sync.RWMutex`: whether a writer holds it and how many
readers hold it. An RLock needs `writer = false`; a Lock needs
`writer = false` and `readers = 0`. -/
structure RW where
  writer : Bool
  readers : Nat
deriving Repr, DecidableEq

/-- Global state of a `fnutils.Group` with its `Run` callers and the
flusher: the `secondary` and `primary` locks, the callers' program
counters, the flusher's program counter, and the number of payload
executions so far. -/
structure GroupSt where
  sec : RW
  pri : RW
  runners : List RPC
  fpc : FPC
  payloads : Nat
deriving Repr, DecidableEq

/-- State after `NewGroup` with `n` prospective `Run` callers: the
primary lock is held exclusively by the group, the secondary lock is
free, no payload has run. -/
def initGroup (n : Nat) : GroupSt :=
  { sec := ⟨false, 0⟩
    pri := ⟨true, 0⟩
    runners := List.replicate n .secRLock
    fpc := .secLock
    payloads := 0 }

/-- One interleaving step: `none` when the event is not enabled (the
thread is blocked on a lock or not at that operation). -/
def step (s : GroupSt) (e : Ev) : Option GroupSt :=
  match e with
  | .rSecRLock r =>
    if s.runners[r]? = some .secRLock ∧ s.sec.writer = false then
      some { s with sec := { s.sec with readers := s.sec.readers + 1 },
                    runners := s.runners.set r .secRUnlock }
    else none
  | .rSecRUnlock r =>
    if s.runners[r]? = some .secRUnlock ∧ 0 < s.sec.readers then
      some { s with sec := { s.sec with readers := s.sec.readers - 1 },
                    runners := s.runners.set r .priRLock }
    else none
  | .rPriRLock r =>
    if s.runners[r]? = some .priRLock ∧ s.pri.writer = false then
      some { s with pri := { s.pri with readers := s.pri.readers + 1 },
                    runners := s.runners.set r .priRUnlock }
    else none
  | .rPriRUnlock r =>
    if s.runners[r]? = some .priRUnlock ∧ 0 < s.pri.readers then
      some { s with pri := { s.pri with readers := s.pri.readers - 1 },
                    runners := s.runners.set r .done }
    else none
  | .fSecLock =>
    if s.fpc = .secLock ∧ s.sec.writer = false ∧ s.sec.readers = 0 then
      some { s with sec := { s.sec with writer := true }, fpc := .payload }
    else none
  | .fPayload =>
    if s.fpc = .payload then
      some { s with payloads := s.payloads + 1, fpc := .priUnlock }
    else none
  | .fPriUnlock =>
    if s.fpc = .priUnlock then
      some { s with pri := { s.pri with writer := false }, fpc := .priLock }
    else none
  | .fPriLock =>
    if s.fpc = .priLock ∧ s.pri.writer = false ∧ s.pri.readers = 0 then
      some { s with pri := { s.pri with writer := true }, fpc := .secUnlock }
    else none
  | .fSecUnlock =>
    if s.fpc = .secUnlock then
      some { s with sec := { s.sec with writer := false }, fpc := .secLock }
    else none

/-- Execution of an event list from a state; `none` when some event was
not enabled. -/
def runTrace : GroupSt → List Ev → Option GroupSt
  | s, [] => some s
  | s, e :: es =>
    match step s e with
    | none => none
    | some s2 => runTrace s2 es

/-- Lock/phase invariant of the FlushGroup: the primary lock is free
exactly while the flusher is between its primary unlock and primary
relock (after the payload of the current flush), and the secondary lock
is writer-held exactly while a flush is in progress. -/
def WriterInv (s : GroupSt) : Prop :=
  (s.pri.writer = false ↔ s.fpc = .priLock) ∧
  (s.sec.writer = true ↔ s.fpc ≠ .secLock)

/-- Events not containing a payload execution nor a flush boundary. -/
def critFree (es : List Ev) : Prop :=
  ∀ e ∈ es, e ≠ .fPayload ∧ e ≠ .fSecLock ∧ e ≠ .fSecUnlock

/-- Occurrences of an event in a trace. -/
def countE (e : Ev) : List Ev → Nat
  | [] => 0
  | x :: xs => (if x = e then 1 else 0) + countE e xs

/-- Token counting: one payload runs per flush window. `tok` is 1 while
the flusher has fenced but not yet executed the payload. -/
def tok (s : GroupSt) : Nat :=
  match s.fpc with
  | .payload => 1
  | _ => 0

theorem goDiv_eq {a b : Int} (ha : 0 ≤ a) (hb : 0 ≤ b) : goDiv a b = a / b :=
  Int.tdiv_eq_ediv ha hb

theorem goMod_eq {a b : Int} (ha : 0 ≤ a) (hb : 0 ≤ b) : goMod a b = a % b :=
  Int.tmod_eq_emod ha hb

/-- Basic algebraic facts about `calcRange` for `S > 0`, `off ≥ 0`,
`len > 0`: the start boundary equals `off`, the end boundary equals
`off + len`, offsets are in range, and the segment indices are ordered. -/
theorem calcRange_eq (S len off : Int) (hS : 0 < S) (hoff : 0 ≤ off) (hlen : 0 < len) :
    (calcRange S len off).sseg * S + (calcRange S len off).soff = off ∧
    0 ≤ (calcRange S len off).soff ∧ (calcRange S len off).soff < S ∧
    (calcRange S len off).eseg * S + (calcRange S len off).eoff = off + len ∧
    0 < (calcRange S len off).eoff ∧ (calcRange S len off).eoff ≤ S ∧
    (calcRange S len off).sseg ≤ (calcRange S len off).eseg ∧
    0 ≤ (calcRange S len off).sseg := by
  have hS' : (0:Int) ≤ S := le_of_lt hS
  have hlo : (0:Int) ≤ len + off := by linarith
  have hmod0 : 0 ≤ off % S := Int.emod_nonneg off (ne_of_gt hS)
  have hmod1 : off % S < S := Int.emod_lt_of_pos off hS
  have hid : S * (off / S) + off % S = off := Int.ediv_add_emod off S
  have hid2 : S * ((len + off) / S) + (len + off) % S = len + off :=
    Int.ediv_add_emod (len + off) S
  have hmod2 : 0 ≤ (len + off) % S := Int.emod_nonneg _ (ne_of_gt hS)
  have hmod3 : (len + off) % S < S := Int.emod_lt_of_pos _ hS
  have hdnn : 0 ≤ off / S := Int.ediv_nonneg hoff hS'
  have hcm1 : off / S * S = S * (off / S) := mul_comm _ _
  have hcm2 : (len + off) / S * S = S * ((len + off) / S) := mul_comm _ _
  unfold calcRange
  dsimp only
  rw [goDiv_eq hoff hS', goMod_eq hoff hS', goDiv_eq hlo hS', goMod_eq hlo hS']
  split_ifs with h
  · dsimp only
    have hq : S * ((len + off) / S) = len + off := by linarith
    refine ⟨by linarith, hmod0, hmod1, ?_, hS, le_refl S, ?_, hdnn⟩
    · have hexp : ((len + off) / S - 1) * S + S = S * ((len + off) / S) := by ring
      linarith
    · -- off / S ≤ (len + off) / S - 1
      have hlt : off < ((len + off) / S) * S := by linarith
      have := (Int.ediv_lt_iff_lt_mul hS (a := off) (b := (len + off) / S)).mpr hlt
      omega
  · dsimp only
    refine ⟨by linarith, hmod0, hmod1, by linarith, ?_, le_of_lt hmod3, ?_, hdnn⟩
    · omega
    · exact Int.ediv_le_ediv hS (by linarith)

theorem boundsRange_eq_calcRange (S len off : Int) :
    boundsRange S off (off + len) = calcRange S len off := by
  unfold boundsRange calcRange
  rw [add_comm off len]

/-- C1: for segment size `S > 0`, offset `off ≥ 0` and length `len > 0`,
the decomposition computed by `calcRange` (and equally by `Bounds`)
visits segments `sseg..eseg` with sub-range `[soff, S)` on the first,
`[0, S)` on middle segments and `[0, eoff)` on the last, and these
sub-ranges cover exactly `[off, off+len)` with no gap (every position in
the range lies in some visited sub-range, and conversely) and no overlap
(the visited segment of a position is unique). -/
theorem calcRange_covers_exactly (S len off x : Int)
    (hS : 0 < S) (hoff : 0 ≤ off) (hlen : 0 < len) :
    boundsRange S off (off + len) = calcRange S len off ∧
    ((off ≤ x ∧ x < off + len) ↔ ∃ i, inSpan (calcRange S len off) S i x) ∧
    (∀ i j, inSpan (calcRange S len off) S i x →
      inSpan (calcRange S len off) S j x → i = j) := by
  obtain ⟨hF1, hso0, hsoS, hF2, heo0, heoS, hle, hss0⟩ := calcRange_eq S len off hS hoff hlen
  set r := calcRange S len off with hr
  refine ⟨boundsRange_eq_calcRange S len off, ⟨?_, ?_⟩, ?_⟩
  · -- forward: every covered position lies in a visited sub-range
    rintro ⟨hx1, hx2⟩
    refine ⟨x / S, ?_, ?_, ?_, ?_⟩
    · -- r.sseg ≤ x / S
      have h1 : r.sseg * S ≤ x := by linarith
      exact (Int.le_ediv_iff_mul_le hS).mpr h1
    · -- x / S ≤ r.eseg
      have hexp : (r.eseg + 1) * S = r.eseg * S + S := by ring
      have h1 : x < (r.eseg + 1) * S := by linarith
      have := (Int.ediv_lt_iff_lt_mul hS (a := x) (b := r.eseg + 1)).mpr h1
      omega
    · -- lower bound inside the segment
      have hxid : S * (x / S) + x % S = x := Int.ediv_add_emod x S
      have hxm0 : 0 ≤ x % S := Int.emod_nonneg x (ne_of_gt hS)
      by_cases hi : x / S = r.sseg
      · rw [if_pos hi, hi]
        have hcm : S * r.sseg = r.sseg * S := mul_comm _ _
        rw [hi] at hxid
        linarith
      · rw [if_neg hi]
        have hcm : S * (x / S) = x / S * S := mul_comm _ _
        linarith
    · -- upper bound inside the segment
      have hxid : S * (x / S) + x % S = x := Int.ediv_add_emod x S
      have hxm1 : x % S < S := Int.emod_lt_of_pos x hS
      by_cases hi : x / S = r.eseg
      · rw [if_pos hi, hi]
        rw [hi] at hxid
        have hcm : S * r.eseg = r.eseg * S := mul_comm _ _
        linarith
      · rw [if_neg hi]
        have hcm : S * (x / S) = x / S * S := mul_comm _ _
        linarith
  · -- backward: every visited sub-range position is inside [off, off+len)
    rintro ⟨i, h1, h2, h3, h4⟩
    constructor
    · by_cases hi : i = r.sseg
      · rw [if_pos hi] at h3; rw [hi] at h3; linarith
      · rw [if_neg hi] at h3
        have hlt : r.sseg < i := lt_of_le_of_ne h1 (fun h => hi h.symm)
        have hmul : (r.sseg + 1) * S ≤ i * S :=
          mul_le_mul_of_nonneg_right (by omega) (le_of_lt hS)
        have hexp : (r.sseg + 1) * S = r.sseg * S + S := by ring
        linarith
    · by_cases hi : i = r.eseg
      · rw [if_pos hi] at h4; rw [hi] at h4; linarith
      · rw [if_neg hi] at h4
        have hlt : i < r.eseg := lt_of_le_of_ne h2 hi
        have hmul : (i + 1) * S ≤ r.eseg * S :=
          mul_le_mul_of_nonneg_right (by omega) (le_of_lt hS)
        have hexp : (i + 1) * S = i * S + S := by ring
        linarith
  · -- no overlap: the visited segment of a position is unique
    rintro i j ⟨hi1, hi2, hi3, hi4⟩ ⟨hj1, hj2, hj3, hj4⟩
    have hilo : i * S ≤ x := by
      by_cases hi : i = r.sseg
      · rw [if_pos hi] at hi3; linarith
      · rw [if_neg hi] at hi3; linarith
    have hihi : x < i * S + S := by
      by_cases hi : i = r.eseg
      · rw [if_pos hi] at hi4; linarith
      · rw [if_neg hi] at hi4; linarith
    have hjlo : j * S ≤ x := by
      by_cases hj : j = r.sseg
      · rw [if_pos hj] at hj3; linarith
      · rw [if_neg hj] at hj3; linarith
    have hjhi : x < j * S + S := by
      by_cases hj : j = r.eseg
      · rw [if_pos hj] at hj4; linarith
      · rw [if_neg hj] at hj4; linarith
    have hexpj : (j + 1) * S = j * S + S := by ring
    have hexpi : (i + 1) * S = i * S + S := by ring
    have h1 : i * S < (j + 1) * S := by linarith
    have h2 : j * S < (i + 1) * S := by linarith
    have h1' : i < j + 1 := lt_of_mul_lt_mul_right h1 (le_of_lt hS)
    have h2' : j < i + 1 := lt_of_mul_lt_mul_right h2 (le_of_lt hS)
    omega

/-- C1 witness: the decomposition properties instantiated at
`S = 10`, `len = 15`, `off = 5`, `x = 12`. -/
theorem calcRange_covers_exactly_witness :
    boundsRange 10 5 (5 + 15) = calcRange 10 15 5 ∧
    ((5 ≤ (12:Int) ∧ (12:Int) < 5 + 15) ↔ ∃ i, inSpan (calcRange 10 15 5) 10 i 12) ∧
    (∀ i j, inSpan (calcRange 10 15 5) 10 i 12 →
      inSpan (calcRange 10 15 5) 10 j 12 → i = j) :=
  calcRange_covers_exactly 10 15 5 12 (by decide) (by decide) (by decide)

theorem mem_intRangeAux {n : Nat} {a i : Int} :
    i ∈ intRangeAux a n ↔ a ≤ i ∧ i < a + n := by
  induction n generalizing a with
  | zero => simp [intRangeAux]
  | succ n ih =>
    simp only [intRangeAux, List.mem_cons, ih]
    omega

theorem intRangeAux_length (a : Int) (n : Nat) : (intRangeAux a n).length = n := by
  induction n generalizing a with
  | zero => rfl
  | succ n ih => simp [intRangeAux, ih]

theorem mem_intRange {a b i : Int} : i ∈ intRange a b ↔ a ≤ i ∧ i ≤ b := by
  unfold intRange
  rw [mem_intRangeAux]
  omega

theorem intRange_length (a b : Int) : (intRange a b).length = (b + 1 - a).toNat :=
  intRangeAux_length a _

theorem intRange_cons {a b : Int} (h : a ≤ b) :
    intRange a b = a :: intRange (a + 1) b := by
  unfold intRange
  have h1 : (b + 1 - a).toNat = (b + 1 - (a + 1)).toNat + 1 := by omega
  rw [h1]
  rfl

theorem intRange_nil {a b : Int} (h : b < a) : intRange a b = [] := by
  unfold intRange
  have h1 : (b + 1 - a).toNat = 0 := by omega
  rw [h1]
  rfl

theorem calcRange_sseg (S sz off : Int) : (calcRange S sz off).sseg = goDiv off S := by
  unfold calcRange
  dsimp only
  split_ifs <;> rfl

theorem calcRange_soff (S sz off : Int) : (calcRange S sz off).soff = goMod off S := by
  unfold calcRange
  dsimp only
  split_ifs <;> rfl

theorem readBytes_cons (f : SegFile) (s : Int × Int × Int) (spans : List (Int × Int × Int)) :
    readBytes f (s :: spans) =
      ((intRange s.2.1 (s.2.2 - 1)).map fun j => f.data s.1 j) ++ readBytes f spans := by
  simp [readBytes]

/-- Length of the bytes copied over the sub-ranges `a..b` with start
offset `so` and end offset `eo`: the telescoped total
`b*S + eo - (a*S + so)`. -/
theorem readBytes_spanList_length (f : SegFile) (S b eo : Int)
    (heo : 0 < eo) (heoS : eo ≤ S) :
    ∀ n : Nat, ∀ a so : Int, (b - a).toNat = n → a ≤ b → 0 ≤ so → so ≤ S →
      (a = b → so ≤ eo) →
      ((readBytes f (spanList S so eo a b)).length : Int) = b * S + eo - (a * S + so) := by
  intro n
  induction n with
  | zero =>
    intro a so hn hab hso hsoS hfirst
    have hab' : a = b := by omega
    subst hab'
    rw [spanList, intRange_cons (le_refl a), intRange_nil (by omega),
      List.map_cons, List.map_nil, if_pos rfl, if_pos rfl]
    rw [readBytes_cons]
    simp only [readBytes, List.flatMap_nil, List.append_nil, List.length_map]
    rw [intRange_length]
    have hsoeo : so ≤ eo := hfirst rfl
    have h1 : ((eo - 1 + 1 - so).toNat : Int) = eo - so := by omega
    rw [h1]
    ring
  | succ n ih =>
    intro a so hn hab hso hsoS hfirst
    have hlt : a < b := by omega
    have hne : a ≠ b := ne_of_lt hlt
    rw [spanList, intRange_cons hab, List.map_cons, if_pos rfl, if_neg hne]
    have htail :
        (intRange (a + 1) b).map
            (fun i => (i, if i = a then so else 0, if i = b then eo else S)) =
          spanList S 0 eo (a + 1) b := by
      rw [spanList]
      apply List.map_congr_left
      intro i hi
      rw [mem_intRange] at hi
      have hia : i ≠ a := by omega
      simp [hia]
    rw [htail, readBytes_cons, List.length_append, List.length_map, intRange_length]
    have ihapp := ih (a + 1) 0 (by omega) (by omega) (le_refl 0) (by linarith)
      (fun _ => le_of_lt heo)
    have h1 : ((S - 1 + 1 - so).toNat : Int) = S - so := by omega
    have hexp : (a + 1) * S = a * S + S := by ring
    push_cast
    rw [h1, ihapp]
    linarith

/-- C2: for `ReadAt(p, off)` on an open `SegFile` with `len(p) > 0`:
if `start_seg = off / S` is at least the segment count the call returns
`(0, EndOfStream)` (`io.EOF`); if the range extends past the last
allocated segment but at least one byte is available, the end is
clamped to the last allocated segment and the call returns the number
of bytes actually copied from existing segments — a short read,
positive and smaller than `len(p)` — with no error. -/
theorem readAt_eof_and_short_read (f : SegFile) (len : Nat) (off : Int)
    (hcl : f.closed = false) (hS : 0 < f.fsize) (hoff : 0 ≤ off) (hlen : 0 < len) :
    (f.meta.segs ≤ goDiv off f.fsize → readAt f (some len) off = .error .eof) ∧
    (goDiv off f.fsize < f.meta.segs →
      f.meta.segs ≤ (calcRange f.fsize (Int.ofNat len) off).eseg →
      ∃ bs, readAt f (some len) off = .ok (f.meta.segs * f.fsize - off, bs) ∧
        (bs.length : Int) = f.meta.segs * f.fsize - off ∧
        0 < f.meta.segs * f.fsize - off ∧
        f.meta.segs * f.fsize - off < Int.ofNat len) := by
  have hlen' : 0 < (Int.ofNat len) := by
    rw [Int.ofNat_eq_natCast]
    exact_mod_cast hlen
  obtain ⟨hF1, hso0, hsoS, hF2, heo0, heoS, hsele, hss0⟩ :=
    calcRange_eq f.fsize (Int.ofNat len) off hS hoff hlen'
  set r := calcRange f.fsize (Int.ofNat len) off with hr
  have hsseg : r.sseg = goDiv off f.fsize := calcRange_sseg f.fsize (Int.ofNat len) off
  unfold readAt
  rw [hcl]
  simp only [Bool.false_eq_true, if_false, Option.getD_some]
  have hp : ¬((some len = none) ∨ off < 0) := by
    push_neg
    exact ⟨Option.some_ne_none len, hoff⟩
  rw [if_neg hp, if_neg (by omega : ¬ Int.ofNat len = 0)]
  rw [← hr]
  constructor
  · intro hseg
    rw [if_pos (by omega : r.sseg ≥ f.meta.segs)]
  · intro hlt hge
    rw [if_neg (by omega : ¬ r.sseg ≥ f.meta.segs), if_pos (by omega : r.eseg ≥ f.meta.segs)]
    have hn : f.fsize * (f.meta.segs - 1 - r.sseg) + (f.fsize - r.soff) =
        f.meta.segs * f.fsize - off := by
      have hexp : f.fsize * (f.meta.segs - 1 - r.sseg) =
          f.meta.segs * f.fsize - f.fsize - r.sseg * f.fsize := by ring
      linarith
    refine ⟨readBytes f (spanList f.fsize r.soff f.fsize r.sseg (f.meta.segs - 1)),
      ?_, ?_, ?_, ?_⟩
    · rw [hn]
    · -- length of the copied bytes
      have hlen2 := readBytes_spanList_length f f.fsize (f.meta.segs - 1) f.fsize hS
        (le_refl f.fsize) (f.meta.segs - 1 - r.sseg).toNat r.sseg r.soff rfl
        (by omega) hso0 (le_of_lt hsoS) (fun _ => le_of_lt hsoS)
      rw [hlen2]
      have hexp : (f.meta.segs - 1) * f.fsize = f.meta.segs * f.fsize - f.fsize := by ring
      linarith
    · -- at least one byte available
      have hmul : (r.sseg + 1) * f.fsize ≤ f.meta.segs * f.fsize :=
        mul_le_mul_of_nonneg_right (by omega) (le_of_lt hS)
      have hexp : (r.sseg + 1) * f.fsize = r.sseg * f.fsize + f.fsize := by ring
      linarith
    · -- short read: fewer bytes than requested
      have hmul : f.meta.segs * f.fsize ≤ r.eseg * f.fsize :=
        mul_le_mul_of_nonneg_right hge (le_of_lt hS)
      linarith

/-- C2 witness: a SegFile with two 10-byte segments; a read of 4 bytes
at offset 25 gets EndOfStream, and a read of 4 bytes at offset 18 is
clamped to the 2 available bytes. -/
theorem readAt_eof_and_short_read_witness :
    (let f : SegFile :=
      { fsize := 10, pthresh := 5, ronly := false, closed := false, palloc := false,
        offset := 0, meta := ⟨2, 10, 15⟩, nsegs := 2, data := fun i j => i * 100 + j };
    (f.meta.segs ≤ goDiv 25 f.fsize → readAt f (some 4) 25 = .error .eof)) ∧
    (let f : SegFile :=
      { fsize := 10, pthresh := 5, ronly := false, closed := false, palloc := false,
        offset := 0, meta := ⟨2, 10, 15⟩, nsegs := 2, data := fun i j => i * 100 + j };
    (goDiv 18 f.fsize < f.meta.segs →
      f.meta.segs ≤ (calcRange f.fsize (Int.ofNat 4) 18).eseg →
      ∃ bs, readAt f (some 4) 18 = .ok (f.meta.segs * f.fsize - 18, bs) ∧
        (bs.length : Int) = f.meta.segs * f.fsize - 18 ∧
        0 < f.meta.segs * f.fsize - 18 ∧
        f.meta.segs * f.fsize - 18 < Int.ofNat 4)) :=
  ⟨(readAt_eof_and_short_read _ 4 25 rfl (by decide) (by decide) (by decide)).1,
   (readAt_eof_and_short_read _ 4 18 rfl (by decide) (by decide) (by decide)).2⟩

theorem need_eq_ceilDiv (a b : Int) (ha : 0 ≤ a) (hb : 0 < b) :
    (if goMod a b ≠ 0 then goDiv a b + 1 else goDiv a b) = ceilDiv a b := by
  rw [goDiv_eq ha (le_of_lt hb), goMod_eq ha (le_of_lt hb)]
  have hid : b * (a / b) + a % b = a := Int.ediv_add_emod a b
  have hr0 : 0 ≤ a % b := Int.emod_nonneg a (ne_of_gt hb)
  have hr1 : a % b < b := Int.emod_lt_of_pos a hb
  unfold ceilDiv
  by_cases h : a % b = 0
  · rw [if_neg (by simpa using h)]
    have h2 : a + b - 1 = (b - 1) + b * (a / b) := by linarith
    have h3 : (b - 1) / b = 0 := Int.ediv_eq_zero_of_lt (by omega) (by omega)
    rw [h2, Int.add_mul_ediv_left (b - 1) (a / b) (ne_of_gt hb), h3, zero_add]
  · rw [if_pos (by simpa using h)]
    have hexp : b * (a / b + 1) = b * (a / b) + b := by ring
    have h2 : a + b - 1 = (a % b - 1) + b * (a / b + 1) := by linarith
    have h3 : (a % b - 1) / b = 0 := Int.ediv_eq_zero_of_lt (by omega) (by omega)
    rw [h2, Int.add_mul_ediv_left (a % b - 1) (a / b + 1) (ne_of_gt hb), h3, zero_add]

theorem le_ceilDiv_mul (a b : Int) (ha : 0 ≤ a) (hb : 0 < b) :
    a ≤ ceilDiv a b * b := by
  rw [← need_eq_ceilDiv a b ha hb, goDiv_eq ha (le_of_lt hb), goMod_eq ha (le_of_lt hb)]
  have hid : b * (a / b) + a % b = a := Int.ediv_add_emod a b
  have hr0 : 0 ≤ a % b := Int.emod_nonneg a (ne_of_gt hb)
  have hr1 : a % b < b := Int.emod_lt_of_pos a hb
  by_cases h : a % b = 0
  · rw [if_neg (by simpa using h)]
    have : a / b * b = b * (a / b) := mul_comm _ _
    linarith
  · rw [if_pos (by simpa using h)]
    have : (a / b + 1) * b = b * (a / b) + b := by ring
    linarith

theorem ensureFileSz_fresh (sz : Int) (hsz : 0 < sz) : ensureFileSz 0 sz = sz := by
  unfold ensureFileSz
  rw [if_neg (by omega : ¬ (0:Int) ≥ sz)]
  dsimp only
  rw [goDiv_eq (by omega) (by norm_num), goMod_eq (by omega) (by norm_num)]
  have hid : (1024 * 1024 : Int) * ((sz - 0) / (1024 * 1024)) + (sz - 0) % (1024 * 1024)
      = sz - 0 := Int.ediv_add_emod (sz - 0) (1024 * 1024)
  have hr0 : 0 ≤ (sz - 0) % (1024 * 1024) := Int.emod_nonneg _ (by norm_num)
  have hq0 : 0 ≤ (sz - 0) / (1024 * 1024) := Int.ediv_nonneg (by omega) (by norm_num)
  split_ifs with h
  · rw [max_def, max_def]
    split_ifs <;> omega
  · rw [max_def, max_def]
    split_ifs <;> omega

/-- Preservation shape of `ensureOffset` when no allocation is needed or
after allocation: flags, configuration, `used` and `size` are untouched. -/
theorem ensureOffset_ok (f : SegFile) (off : Int) (hcl : f.closed = false) :
    ∃ g created, ensureOffset f off = .ok (g, created) ∧
      g.fsize = f.fsize ∧ g.pthresh = f.pthresh ∧ g.ronly = f.ronly ∧
      g.closed = false ∧ g.palloc = f.palloc ∧ g.offset = f.offset ∧
      g.meta.used = f.meta.used ∧ g.meta.size = f.meta.size := by
  unfold ensureOffset
  rw [hcl]
  simp only [Bool.false_eq_true, if_false]
  split_ifs <;> first
    | exact ⟨_, _, rfl, rfl, rfl, rfl, hcl, rfl, rfl, rfl, rfl⟩
    | exact ⟨_, _, rfl, rfl, rfl, rfl, rfl, rfl, rfl, rfl, rfl⟩

/-- Allocation behavior of `ensureOffset` when the requested end offset
lies beyond the currently allocated space. -/
theorem ensureOffset_alloc (f : SegFile) (off : Int)
    (hcl : f.closed = false) (hS : 0 < f.fsize) (hoff : 0 ≤ off)
    (hgt : f.nsegs * f.fsize < off) :
    ∃ g created, ensureOffset f off = .ok (g, created) ∧
      (created.length : Int) = ceilDiv off f.fsize - f.nsegs ∧
      (∀ s ∈ created, s = f.fsize) ∧
      g.meta.segs = ceilDiv off f.fsize ∧ g.nsegs = ceilDiv off f.fsize := by
  unfold ensureOffset
  rw [hcl]
  simp only [Bool.false_eq_true, if_false]
  rw [need_eq_ceilDiv off f.fsize hoff hS]
  have hlece : off ≤ ceilDiv off f.fsize * f.fsize := le_ceilDiv_mul off f.fsize hoff hS
  have hneed : f.nsegs < ceilDiv off f.fsize := by
    by_contra hcon
    push_neg at hcon
    have := mul_le_mul_of_nonneg_right hcon (le_of_lt hS)
    linarith
  rw [if_neg (by omega : ¬ ceilDiv off f.fsize - f.nsegs ≤ 0)]
  refine ⟨_, _, rfl, ?_, ?_, rfl, rfl⟩
  · rw [List.length_map, intRange_length]
    omega
  · intro s hs
    rw [List.mem_map] at hs
    obtain ⟨i, _, rfl⟩ := hs
    exact ensureFileSz_fresh f.fsize hS

/-- C3: after every successful `WriteAt(p, off)` on a writable open
SegFile, the call returns `len(p)` and `used_bytes` becomes
`max(used_bytes, off + len)`, so `Size()` is at least `off + len`. -/
theorem writeAt_extends_size (f : SegFile) (bytes : List Int) (off : Int)
    (hcl : f.closed = false) (hro : f.ronly = false) (hS : 0 < f.fsize)
    (hoff : 0 ≤ off) (hlen : 0 < bytes.length) :
    (writeAt f (some bytes) off).res = .ok (Int.ofNat bytes.length) ∧
    (writeAt f (some bytes) off).st.meta.used =
      max f.meta.used (off + Int.ofNat bytes.length) ∧
    off + Int.ofNat bytes.length ≤ size (writeAt f (some bytes) off).st := by
  have hlen' : 0 < Int.ofNat bytes.length := by
    rw [Int.ofNat_eq_natCast]
    exact_mod_cast hlen
  obtain ⟨hF1, hso0, hsoS, hF2, heo0, heoS, hsele, hss0⟩ :=
    calcRange_eq f.fsize (Int.ofNat bytes.length) off hS hoff hlen'
  obtain ⟨g, created, heo, hg1, hg2, hg3, hg4, hg5, hg6, hg7, hg8⟩ :=
    ensureOffset_ok f (off + Int.ofNat bytes.length) hcl
  unfold writeAt
  rw [hcl, hro]
  simp only [Bool.false_eq_true, if_false, Option.getD_some]
  have hp : ¬((some bytes = none) ∨ off < 0) := by
    push_neg
    exact ⟨Option.some_ne_none bytes, hoff⟩
  rw [if_neg hp, if_neg (by omega : ¬ Int.ofNat bytes.length = 0), heo]
  dsimp only
  unfold updateSize
  rw [hg1, hg4, hg7]
  simp only [Bool.false_eq_true, if_false]
  refine ⟨?_, ?_, ?_⟩
  · have heq : (calcRange f.fsize (Int.ofNat bytes.length) off).eseg * f.fsize +
        (calcRange f.fsize (Int.ofNat bytes.length) off).eoff - off =
        Int.ofNat bytes.length := by linarith
    rw [heq]
  · split_ifs with h
    · rw [max_eq_right (le_of_lt h)]
    · rw [hg7, max_eq_left (by omega)]
  · split_ifs with h
    · simp [size]
    · simp only [size]
      simp only [Bool.false_eq_true, if_false, hg7]
      omega

/-- C3 witness: writing 5 bytes at offset 18 of a SegFile whose used
size is 15 returns 5 and raises the size to 23. -/
theorem writeAt_extends_size_witness :
    (let f : SegFile :=
      { fsize := 10, pthresh := 5, ronly := false, closed := false, palloc := false,
        offset := 0, meta := ⟨2, 10, 15⟩, nsegs := 2, data := fun i j => i * 100 + j };
    (writeAt f (some [1, 2, 3, 4, 5]) 18).res = .ok (Int.ofNat ([1, 2, 3, 4, 5] : List Int).length) ∧
    (writeAt f (some [1, 2, 3, 4, 5]) 18).st.meta.used =
      max f.meta.used (18 + Int.ofNat ([1, 2, 3, 4, 5] : List Int).length) ∧
    18 + Int.ofNat ([1, 2, 3, 4, 5] : List Int).length ≤
      size (writeAt f (some [1, 2, 3, 4, 5]) 18).st) :=
  writeAt_extends_size _ [1, 2, 3, 4, 5] 18 rfl rfl (by decide) (by decide) (by decide)

/-- C4: a `WriteAt` whose end offset exceeds the allocated space
`segment_count * S` makes its synchronous `ensureOffset` path create
exactly `ceil((off+len)/S) - segment_count` new segment files, each of
exactly `S` bytes (fresh files zero-filled by `EnsureFile`), and store
`ceil((off+len)/S)` as the new segment count. -/
theorem writeAt_allocates_exact_segments (f : SegFile) (bytes : List Int) (off : Int)
    (hcl : f.closed = false) (hro : f.ronly = false) (hS : 0 < f.fsize)
    (hoff : 0 ≤ off) (hlen : 0 < bytes.length) (hinv : f.nsegs = f.meta.segs)
    (hgt : f.meta.segs * f.fsize < off + Int.ofNat bytes.length) :
    ((writeAt f (some bytes) off).created.length : Int) =
      ceilDiv (off + Int.ofNat bytes.length) f.fsize - f.meta.segs ∧
    (∀ s ∈ (writeAt f (some bytes) off).created, s = f.fsize) ∧
    (writeAt f (some bytes) off).st.meta.segs =
      ceilDiv (off + Int.ofNat bytes.length) f.fsize := by
  have hlen' : 0 < Int.ofNat bytes.length := by
    rw [Int.ofNat_eq_natCast]
    exact_mod_cast hlen
  obtain ⟨g, created, heo, hclen, hcsz, hgsegs, hgnsegs⟩ :=
    ensureOffset_alloc f (off + Int.ofNat bytes.length) hcl hS (by linarith)
      (by rw [hinv]; exact hgt)
  unfold writeAt
  rw [hcl, hro]
  simp only [Bool.false_eq_true, if_false, Option.getD_some]
  have hp : ¬((some bytes = none) ∨ off < 0) := by
    push_neg
    exact ⟨Option.some_ne_none bytes, hoff⟩
  rw [if_neg hp, if_neg (by omega : ¬ Int.ofNat bytes.length = 0), heo]
  dsimp only
  unfold updateSize
  split_ifs with h1 h2 <;>
    exact ⟨by rw [hclen, hinv], hcsz, by rw [hgsegs]⟩

/-- C4 witness: writing 5 bytes at offset 18 in a 1-segment SegFile of
segment size 10 creates exactly `ceil(23/10) - 1 = 2` files of 10 bytes
and sets the count to 3. -/
theorem writeAt_allocates_exact_segments_witness :
    (let f : SegFile :=
      { fsize := 10, pthresh := 5, ronly := false, closed := false, palloc := false,
        offset := 0, meta := ⟨1, 10, 7⟩, nsegs := 1, data := fun _ _ => 0 };
    ((writeAt f (some [1, 2, 3, 4, 5]) 18).created.length : Int) =
      ceilDiv (18 + Int.ofNat ([1, 2, 3, 4, 5] : List Int).length) f.fsize - f.meta.segs ∧
    (∀ s ∈ (writeAt f (some [1, 2, 3, 4, 5]) 18).created, s = f.fsize) ∧
    (writeAt f (some [1, 2, 3, 4, 5]) 18).st.meta.segs =
      ceilDiv (18 + Int.ofNat ([1, 2, 3, 4, 5] : List Int).length) f.fsize) :=
  writeAt_allocates_exact_segments _ [1, 2, 3, 4, 5] 18 rfl rfl (by decide) (by decide)
    (by decide) rfl (by decide)

theorem natToLE_length (w v : Nat) : (natToLE w v).length = w := by
  induction w generalizing v with
  | zero => rfl
  | succ w ih => simp [natToLE, ih]

theorem leToNat_natToLE (w v : Nat) : leToNat (natToLE w v) = v % 256 ^ w := by
  induction w generalizing v with
  | zero => simp [natToLE, leToNat, Nat.mod_one]
  | succ w ih =>
    rw [natToLE, leToNat, ih]
    rw [pow_succ, mul_comm (256 ^ w) 256, Nat.mod_mul]

theorem natToLE_leToNat (b : List Nat) (h : ∀ x ∈ b, x < 256) :
    natToLE b.length (leToNat b) = b := by
  induction b with
  | nil => rfl
  | cons x bs ih =>
    have hx : x < 256 := h x (List.mem_cons_self x bs)
    have hbs : ∀ y ∈ bs, y < 256 := fun y hy => h y (List.mem_cons_of_mem x hy)
    rw [List.length_cons, leToNat, natToLE]
    congr 1
    · rw [Nat.add_mul_mod_self_left, Nat.mod_eq_of_lt hx]
    · rw [Nat.add_mul_div_left x (leToNat bs) (by norm_num), Nat.div_eq_of_lt hx, zero_add]
      exact ih hbs

theorem leToNat_lt (b : List Nat) (h : ∀ x ∈ b, x < 256) :
    leToNat b < 256 ^ b.length := by
  induction b with
  | nil => simp [leToNat]
  | cons x bs ih =>
    have hx : x < 256 := h x (List.mem_cons_self x bs)
    have hbs : ∀ y ∈ bs, y < 256 := fun y hy => h y (List.mem_cons_of_mem x hy)
    have htail := ih hbs
    rw [leToNat, List.length_cons, pow_succ, mul_comm (256 ^ bs.length) 256]
    have h2 : 256 * leToNat bs + 256 ≤ 256 * 256 ^ bs.length := by
      have := Nat.succ_le_of_lt htail
      calc 256 * leToNat bs + 256 = 256 * (leToNat bs + 1) := by ring
        _ ≤ 256 * 256 ^ bs.length := Nat.mul_le_mul_left 256 this
    omega

theorem int64LE_length (v : Int) : (int64LE v).length = 8 := natToLE_length 8 _

theorem leToNat_int64LE (v : Int) : leToNat (int64LE v) = (v % 2 ^ 64).toNat := by
  rw [int64LE, leToNat_natToLE]
  have hlt : (v % 2 ^ 64).toNat < 256 ^ 8 := by
    have h1 : v % 2 ^ 64 < 2 ^ 64 := Int.emod_lt_of_pos v (by norm_num)
    have : (256 : Nat) ^ 8 = 2 ^ 64 := by norm_num
    omega
  exact Nat.mod_eq_of_lt hlt

theorem int64LE_bytes_lt (v : Int) : ∀ x ∈ int64LE v, x < 256 := by
  rw [int64LE]
  generalize (v % 2 ^ 64).toNat = u
  generalize 8 = w
  induction w generalizing u with
  | zero => simp [natToLE]
  | succ w ih =>
    intro x hx
    rw [natToLE, List.mem_cons] at hx
    rcases hx with h | h
    · omega
    · exact ih (u / 256) x h

/-- Decoding the stored image of an in-range `int64` value recovers the
value, regardless of trailing bytes. -/
theorem decodeInt64_int64LE_append (v : Int) (rest : List Nat)
    (hv1 : -(2 ^ 63) ≤ v) (hv2 : v < 2 ^ 63) :
    decodeInt64 (int64LE v ++ rest) = v := by
  rw [decodeInt64]
  have htake : (int64LE v ++ rest).take 8 = int64LE v := by
    have := int64LE_length v
    rw [← this, List.take_left]
  rw [htake, leToNat_int64LE]
  by_cases hv : 0 ≤ v
  · have hmod : v % 2 ^ 64 = v := Int.emod_eq_of_lt hv (by omega)
    rw [hmod]
    rw [if_pos (by omega)]
    omega
  · have heq : v = (v + 2 ^ 64) + 2 ^ 64 * (-1) := by ring
    have hmod : v % 2 ^ 64 = v + 2 ^ 64 := by
      conv_lhs => rw [heq]
      rw [Int.add_mul_emod_self_left]
      exact Int.emod_eq_of_lt (by omega) (by omega)
    rw [hmod]
    rw [if_neg (by omega)]
    omega

/-- C9: the `int64` scalar codec over 8-byte regions round-trips both
ways — encoding the value decoded from a byte region writes back
exactly that region, and decoding the bytes produced by encoding any
representable `int64` value yields the value. -/
theorem int64_codec_roundtrips (b : List Nat) (v : Int)
    (hb : b.length = 8) (hbs : ∀ x ∈ b, x < 256)
    (hv1 : -(2 ^ 63) ≤ v) (hv2 : v < 2 ^ 63) :
    encodeInt64 b (decodeInt64 b) = b ∧ decodeInt64 (encodeInt64 b v) = v := by
  have hdrop : b.drop 8 = [] := List.drop_eq_nil_of_le (by omega)
  have htake : b.take 8 = b := List.take_of_length_le (by omega)
  have hu : leToNat b < 2 ^ 64 := by
    have := leToNat_lt b hbs
    rw [hb] at this
    have h2 : (256 : Nat) ^ 8 = 2 ^ 64 := by norm_num
    omega
  constructor
  · rw [encodeInt64, hdrop, List.append_nil, decodeInt64, htake, int64LE]
    by_cases hlt : leToNat b < 2 ^ 63
    · rw [if_pos (by exact_mod_cast hlt)]
      have hmod : (leToNat b : Int) % 2 ^ 64 = (leToNat b : Int) :=
        Int.emod_eq_of_lt (by positivity) (by exact_mod_cast hu)
      rw [hmod, Int.toNat_natCast]
      have := natToLE_leToNat b hbs
      rw [hb] at this
      exact this
    · rw [if_neg (by exact_mod_cast hlt)]
      have heq : (leToNat b : Int) - 2 ^ 64 = (leToNat b : Int) + 2 ^ 64 * (-1) := by ring
      have hmod : ((leToNat b : Int) - 2 ^ 64) % 2 ^ 64 = (leToNat b : Int) := by
        rw [heq, Int.add_mul_emod_self_left]
        exact Int.emod_eq_of_lt (by positivity) (by exact_mod_cast hu)
      rw [hmod, Int.toNat_natCast]
      have := natToLE_leToNat b hbs
      rw [hb] at this
      exact this
  · exact decodeInt64_int64LE_append v (b.drop 8) hv1 hv2

/-- C9 witness: round trip for the concrete region
`[255,2,3,4,5,6,7,200]` and the concrete value `-5`. -/
theorem int64_codec_roundtrips_witness :
    encodeInt64 [255, 2, 3, 4, 5, 6, 7, 200]
        (decodeInt64 [255, 2, 3, 4, 5, 6, 7, 200]) = [255, 2, 3, 4, 5, 6, 7, 200] ∧
    decodeInt64 (encodeInt64 [255, 2, 3, 4, 5, 6, 7, 200] (-5)) = -5 :=
  int64_codec_roundtrips [255, 2, 3, 4, 5, 6, 7, 200] (-5) (by decide)
    (by decide) (by decide) (by decide)

/-- C6: the persisted metadata image holds the three fields as signed
64-bit little-endian integers at fixed byte offsets — `segment_count`
at 0, `segment_size` at 8, `used_bytes` at 16 — within a 24-byte
header, and each metadata update (`SetSegs`, `SetSize`, `SetUsed`) is
an in-place scalar store at exactly the field's offset, producing the
image of the updated record. The byte layout is modelled from the
spec because the flatbuffer-generated `segfile/metadata` accessors are
outside the sources. -/
theorem metadata_layout_fixed_offsets (m : MetaRec) (v : Int)
    (hsegs1 : -(2 ^ 63) ≤ m.segs) (hsegs2 : m.segs < 2 ^ 63)
    (hsize1 : -(2 ^ 63) ≤ m.size) (hsize2 : m.size < 2 ^ 63)
    (hused1 : -(2 ^ 63) ≤ m.used) (hused2 : m.used < 2 ^ 63) :
    (metaBytes m).length = 24 ∧
    readI64At (metaBytes m) 0 = m.segs ∧
    readI64At (metaBytes m) 8 = m.size ∧
    readI64At (metaBytes m) 16 = m.used ∧
    setSegs (metaBytes m) v = metaBytes { m with segs := v } ∧
    setSize (metaBytes m) v = metaBytes { m with size := v } ∧
    setUsed (metaBytes m) v = metaBytes { m with used := v } := by
  have hlen : ∀ w : Int, (int64LE w).length = 8 := int64LE_length
  have hd8 : (metaBytes m).drop 8 = int64LE m.size ++ int64LE m.used := by
    rw [metaBytes, List.drop_left' (hlen m.segs)]
  have ht8 : (metaBytes m).take 8 = int64LE m.segs := by
    rw [metaBytes, List.take_left' (hlen m.segs)]
  have hassoc : metaBytes m =
      (int64LE m.segs ++ int64LE m.size) ++ int64LE m.used := by
    rw [metaBytes, List.append_assoc]
  have hlen16 : (int64LE m.segs ++ int64LE m.size).length = 16 := by
    rw [List.length_append, hlen, hlen]
  have hd16 : (metaBytes m).drop 16 = int64LE m.used := by
    rw [hassoc, List.drop_left' hlen16]
  have ht16 : (metaBytes m).take 16 = int64LE m.segs ++ int64LE m.size := by
    rw [hassoc, List.take_left' hlen16]
  refine ⟨?_, ?_, ?_, ?_, ?_, ?_, ?_⟩
  · rw [metaBytes]
    simp [List.length_append, hlen, int64LE_length]
  · rw [readI64At, List.drop_zero, metaBytes,
      decodeInt64_int64LE_append m.segs _ hsegs1 hsegs2]
  · rw [readI64At, hd8, decodeInt64_int64LE_append m.size _ hsize1 hsize2]
  · rw [readI64At, hd16]
    have := decodeInt64_int64LE_append m.used [] hused1 hused2
    rw [List.append_nil] at this
    exact this
  · rw [setSegs, hd8, metaBytes]
  · rw [setSize, ht8, hd16, metaBytes]
  · have hlen24 : (metaBytes m).length = 24 := by
      rw [metaBytes]
      simp [List.length_append, hlen, int64LE_length]
    rw [setUsed, ht16, List.drop_eq_nil_of_le (by omega), List.append_nil, metaBytes,
      List.append_assoc]

/-- C6 witness: the layout facts instantiated at the record
`{segs := 1, size := 10, used := 17}` and store value `-3`. -/
theorem metadata_layout_fixed_offsets_witness :
    (metaBytes ⟨1, 10, 17⟩).length = 24 ∧
    readI64At (metaBytes ⟨1, 10, 17⟩) 0 = (1 : Int) ∧
    readI64At (metaBytes ⟨1, 10, 17⟩) 8 = (10 : Int) ∧
    readI64At (metaBytes ⟨1, 10, 17⟩) 16 = (17 : Int) ∧
    setSegs (metaBytes ⟨1, 10, 17⟩) (-3) = metaBytes ⟨-3, 10, 17⟩ ∧
    setSize (metaBytes ⟨1, 10, 17⟩) (-3) = metaBytes ⟨1, -3, 17⟩ ∧
    setUsed (metaBytes ⟨1, 10, 17⟩) (-3) = metaBytes ⟨1, 10, -3⟩ :=
  metadata_layout_fixed_offsets ⟨1, 10, 17⟩ (-3) (by decide) (by decide)
    (by decide) (by decide) (by decide) (by decide)

/-- C5: reopening a SegFile whose persisted `segment_size` is 10 with a
requested size of 20 leaves the persisted value at 10 and validates the
existing segment files against 10 — but the constructed `file` carries
`fsize = 20` (taken from `options.FileSize`), so all addressing
(`calcRange`, `ensureOffset`, `pthresh`) uses the requested 20 instead
of the persisted 10: a `ReadAt` of 15 bytes at offset 0 is decomposed
entirely into segment 0 with end offset 15, beyond the segment's
10 on-disk bytes. The claim's requirement that the persisted value is
used for all addressing fails on this code. -/
theorem reopen_mismatch_uses_requested_size :
    (newSegFile c5Opts c5Disk).toOption.map
      (fun f => (f.fsize, f.meta.size, f.meta.segs, f.pthresh)) = some (20, 10, 1, 10) ∧
    (20 : Int) ≠ 10 ∧
    calcRange 20 15 0 = ⟨0, 0, 0, 15⟩ ∧ (10 : Int) < 15 := by
  exact ⟨rfl, by decide, by decide, by decide⟩

/-- C7: `Seek(0, End)` on a SegFile with stream offset 5 and
`used_bytes` 10 returns 15 — the code adds `offset + used` to the
current cursor instead of positioning relative to `used_bytes` as the
claim (and the `io.Seeker` contract of the embedded interface)
requires, which would give 10. `Seek(-1, Start)` is accepted and sets
the stream offset to −1 instead of rejecting the negative offset; the
source carries a TODO acknowledging the missing error. Whence Start
and Current behave as claimed. -/
theorem seek_end_adds_cursor_and_accepts_negative :
    (seek c7St 0 2).2 = .ok 15 ∧ (seek c7St 0 2).1.offset = 15 ∧
    c7St.meta.used + 0 = 10 ∧ (15 : Int) ≠ 10 ∧
    (seek c7St (-1) 0).2 = .ok (-1) ∧ (seek c7St (-1) 0).1.offset = -1 ∧
    (seek c7St 7 0).2 = .ok 7 ∧ (seek c7St 2 1).2 = .ok 7 :=
  ⟨rfl, rfl, rfl, by decide, rfl, rfl, rfl, rfl⟩

/-- C10 (amended): on an open SegFile, `ReadAt` with a non-nil
zero-length buffer returns `(0, nil)` for every offset `off ≥ 0`,
including offsets at or beyond the allocated space, and `ReadAt`
mutates no state; `WriteAt` with a non-nil zero-length buffer returns
`(0, nil)` with the state unchanged — no segment allocated, no
pre-allocation started — provided the file is writable (on a read-only
SegFile, `WriteAt` returns `ReadOnly` even for an empty buffer). -/
theorem empty_ops_no_effect (f : SegFile) (off : Int)
    (hcl : f.closed = false) (hoff : 0 ≤ off) :
    readAt f (some 0) off = .ok (0, []) ∧
    (f.ronly = false → writeAt f (some []) off = ⟨f, .ok 0, [], false⟩) := by
  have hp0 : ¬((some (0 : Nat) = none) ∨ off < 0) := by
    push_neg
    exact ⟨Option.some_ne_none 0, hoff⟩
  have hp1 : ¬((some ([] : List Int) = none) ∨ off < 0) := by
    push_neg
    exact ⟨Option.some_ne_none [], hoff⟩
  constructor
  · unfold readAt
    rw [hcl]
    simp only [Bool.false_eq_true, if_false]
    rw [if_neg hp0]
    simp only [Option.getD_some]
    rw [if_pos (by decide : Int.ofNat 0 = 0)]
  · intro hro
    unfold writeAt
    rw [hcl, hro]
    simp only [Bool.false_eq_true, if_false]
    rw [if_neg hp1]
    simp only [Option.getD_some]
    rw [if_pos (by decide : Int.ofNat ([] : List Int).length = 0)]

/-- C10 witness: the empty read and the empty write on a concrete
writable open SegFile, at offset 35, beyond the allocated space. -/
theorem empty_ops_no_effect_witness :
    (let f : SegFile :=
      { fsize := 10, pthresh := 5, ronly := false, closed := false, palloc := false,
        offset := 0, meta := ⟨2, 10, 15⟩, nsegs := 2, data := fun i j => i * 100 + j };
    readAt f (some 0) 35 = .ok (0, []) ∧
    (f.ronly = false → writeAt f (some []) 35 = ⟨f, .ok 0, [], false⟩)) :=
  empty_ops_no_effect _ 35 rfl (by decide)

/-- C10 counterexample: on an open but read-only SegFile, `WriteAt`
with a non-nil zero-length buffer does not return `(0, nil)` — the
read-only check precedes the empty-buffer check, so `ReadOnly` is
returned. -/
theorem empty_write_readonly_not_ok :
    roSt.closed = false ∧ (writeAt roSt (some []) 0).res = .error .ronly ∧
    (writeAt roSt (some []) 0).res ≠ .ok 0 := by
  refine ⟨rfl, rfl, ?_⟩
  intro h
  have h2 : (Except.error Err.ronly : Except Err Int) = .ok 0 := by
    rw [(rfl : (writeAt roSt (some []) 0).res = Except.error Err.ronly)] at h
    exact h
  exact absurd h2 (by simp)

theorem writerInv_step {s s2 : GroupSt} {e : Ev}
    (h : WriterInv s) (hst : step s e = some s2) : WriterInv s2 := by
  obtain ⟨h1, h2⟩ := h
  cases e with
  | rSecRLock r =>
    simp only [step] at hst
    split_ifs at hst with hc
    injection hst with hs2
    subst hs2
    exact ⟨h1, h2⟩
  | rSecRUnlock r =>
    simp only [step] at hst
    split_ifs at hst with hc
    injection hst with hs2
    subst hs2
    exact ⟨h1, h2⟩
  | rPriRLock r =>
    simp only [step] at hst
    split_ifs at hst with hc
    injection hst with hs2
    subst hs2
    exact ⟨h1, h2⟩
  | rPriRUnlock r =>
    simp only [step] at hst
    split_ifs at hst with hc
    injection hst with hs2
    subst hs2
    exact ⟨h1, h2⟩
  | fSecLock =>
    simp only [step] at hst
    split_ifs at hst with hc
    injection hst with hs2
    subst hs2
    unfold WriterInv
    dsimp only
    refine ⟨⟨fun hw => ?_, fun hp => ?_⟩, by constructor <;> intro <;> decide⟩
    · have := h1.mp hw
      rw [hc.1] at this
      exact absurd this (by decide)
    · exact absurd hp (by decide)
  | fPayload =>
    simp only [step] at hst
    split_ifs at hst with hc
    injection hst with hs2
    subst hs2
    unfold WriterInv
    dsimp only
    refine ⟨⟨fun hw => ?_, fun hp => ?_⟩, ?_⟩
    · have := h1.mp hw
      rw [hc] at this
      exact absurd this (by decide)
    · exact absurd hp (by decide)
    · constructor
      · intro
        decide
      · intro
        have := h2.mpr (by rw [hc]; decide)
        exact this
  | fPriUnlock =>
    simp only [step] at hst
    split_ifs at hst with hc
    injection hst with hs2
    subst hs2
    unfold WriterInv
    dsimp only
    refine ⟨⟨fun _ => rfl, fun _ => rfl⟩, ?_⟩
    constructor
    · intro
      decide
    · intro
      exact h2.mpr (by rw [hc]; decide)
  | fPriLock =>
    simp only [step] at hst
    split_ifs at hst with hc
    injection hst with hs2
    subst hs2
    unfold WriterInv
    dsimp only
    refine ⟨⟨fun hw => absurd hw (by decide), fun hp => absurd hp (by decide)⟩, ?_⟩
    constructor
    · intro
      decide
    · intro
      exact h2.mpr (by rw [hc.1]; decide)
  | fSecUnlock =>
    simp only [step] at hst
    split_ifs at hst with hc
    injection hst with hs2
    subst hs2
    unfold WriterInv
    dsimp only
    refine ⟨⟨fun hw => ?_, fun hp => ?_⟩, ?_⟩
    · have := h1.mp hw
      rw [hc] at this
      exact absurd this (by decide)
    · exact absurd hp (by decide)
    · constructor
      · intro hw
        exact absurd hw (by decide)
      · intro hne
        exact absurd rfl hne

theorem writerInv_runTrace {es : List Ev} :
    ∀ {s s2 : GroupSt}, WriterInv s → runTrace s es = some s2 → WriterInv s2 := by
  induction es with
  | nil =>
    intro s s2 h hr
    rw [runTrace] at hr
    injection hr with h2
    subst h2
    exact h
  | cons e es ih =>
    intro s s2 h hr
    rw [runTrace] at hr
    cases hst : step s e with
    | none => rw [hst] at hr; exact absurd hr (by simp)
    | some s1 =>
      rw [hst] at hr
      exact ih (writerInv_step h hst) hr

theorem writerInv_init (n : Nat) : WriterInv (initGroup n) := by
  constructor <;> constructor <;> intro h <;> simp [initGroup] at h ⊢

theorem runner_step_fpc {s s2 : GroupSt} {r : Nat} {e : Ev}
    (he : e = .rSecRLock r ∨ e = .rSecRUnlock r ∨ e = .rPriRLock r ∨ e = .rPriRUnlock r)
    (hst : step s e = some s2) : s2.fpc = s.fpc := by
  rcases he with rfl | rfl | rfl | rfl <;>
    · simp only [step] at hst
      split_ifs at hst with hc
      injection hst with hs2
      subst hs2
      rfl

theorem runner_step_payloads {s s2 : GroupSt} {r : Nat} {e : Ev}
    (he : e = .rSecRLock r ∨ e = .rSecRUnlock r ∨ e = .rPriRLock r ∨ e = .rPriRUnlock r)
    (hst : step s e = some s2) : s2.payloads = s.payloads := by
  rcases he with rfl | rfl | rfl | rfl <;>
    · simp only [step] at hst
      split_ifs at hst with hc
      injection hst with hs2
      subst hs2
      rfl

theorem tok_congr {s1 s2 : GroupSt} (h : s1.fpc = s2.fpc) : tok s1 = tok s2 := by
  unfold tok
  rw [h]

/-- If an execution ends between a payload and the end of its flush
(flusher at `priUnlock` or `priLock`), the trace contains that
payload event followed only by events of the same open flush window —
or the window was already open at the start and stays untouched. -/
theorem hist_payload (es : List Ev) :
    ∀ s0 s : GroupSt, runTrace s0 es = some s →
    (s.fpc = .priUnlock ∨ s.fpc = .priLock) →
    (∃ es1 es2, es = es1 ++ .fPayload :: es2 ∧ critFree es2) ∨
    ((s0.fpc = .priUnlock ∨ s0.fpc = .priLock) ∧ critFree es) := by
  induction es with
  | nil =>
    intro s0 s hr hm
    rw [runTrace] at hr
    injection hr with h2
    subst h2
    right
    exact ⟨hm, fun e he => absurd he (List.not_mem_nil e)⟩
  | cons e es ih =>
    intro s0 s hr hm
    rw [runTrace] at hr
    cases hst : step s0 e with
    | none => rw [hst] at hr; exact absurd hr (by simp)
    | some s1 =>
      rw [hst] at hr
      rcases ih s1 s hr hm with ⟨es1, es2, heq, hcf⟩ | ⟨hs1, hcf⟩
      · left
        exact ⟨e :: es1, es2, by rw [heq, List.cons_append], hcf⟩
      · cases e with
        | fPayload =>
          left
          exact ⟨[], es, rfl, hcf⟩
        | fPriUnlock =>
          right
          refine ⟨?_, ?_⟩
          · simp only [step] at hst
            split_ifs at hst with hc
            exact Or.inl hc
          · intro x hx
            rcases List.mem_cons.mp hx with rfl | hx2
            · exact ⟨fun hh => Ev.noConfusion hh, fun hh => Ev.noConfusion hh,
                fun hh => Ev.noConfusion hh⟩
            · exact hcf x hx2
        | fSecLock =>
          exfalso
          simp only [step] at hst
          split_ifs at hst with hc
          injection hst with hs2
          subst hs2
          dsimp only at hs1
          rcases hs1 with h2 | h2 <;> exact absurd h2 (by decide)
        | fPriLock =>
          exfalso
          simp only [step] at hst
          split_ifs at hst with hc
          injection hst with hs2
          subst hs2
          dsimp only at hs1
          rcases hs1 with h2 | h2 <;> exact absurd h2 (by decide)
        | fSecUnlock =>
          exfalso
          simp only [step] at hst
          split_ifs at hst with hc
          injection hst with hs2
          subst hs2
          dsimp only at hs1
          rcases hs1 with h2 | h2 <;> exact absurd h2 (by decide)
        | rSecRLock r =>
          right
          have hfpc := runner_step_fpc (Or.inl rfl) hst
          refine ⟨by rw [← hfpc]; exact hs1, ?_⟩
          intro x hx
          rcases List.mem_cons.mp hx with rfl | hx2
          · exact ⟨fun hh => Ev.noConfusion hh, fun hh => Ev.noConfusion hh,
              fun hh => Ev.noConfusion hh⟩
          · exact hcf x hx2
        | rSecRUnlock r =>
          right
          have hfpc := runner_step_fpc (Or.inr (Or.inl rfl)) hst
          refine ⟨by rw [← hfpc]; exact hs1, ?_⟩
          intro x hx
          rcases List.mem_cons.mp hx with rfl | hx2
          · exact ⟨fun hh => Ev.noConfusion hh, fun hh => Ev.noConfusion hh,
              fun hh => Ev.noConfusion hh⟩
          · exact hcf x hx2
        | rPriRLock r =>
          right
          have hfpc := runner_step_fpc (Or.inr (Or.inr (Or.inl rfl))) hst
          refine ⟨by rw [← hfpc]; exact hs1, ?_⟩
          intro x hx
          rcases List.mem_cons.mp hx with rfl | hx2
          · exact ⟨fun hh => Ev.noConfusion hh, fun hh => Ev.noConfusion hh,
              fun hh => Ev.noConfusion hh⟩
          · exact hcf x hx2
        | rPriRUnlock r =>
          right
          have hfpc := runner_step_fpc (Or.inr (Or.inr (Or.inr rfl))) hst
          refine ⟨by rw [← hfpc]; exact hs1, ?_⟩
          intro x hx
          rcases List.mem_cons.mp hx with rfl | hx2
          · exact ⟨fun hh => Ev.noConfusion hh, fun hh => Ev.noConfusion hh,
              fun hh => Ev.noConfusion hh⟩
          · exact hcf x hx2

theorem countE_cons (e x : Ev) (xs : List Ev) :
    countE e (x :: xs) = (if x = e then 1 else 0) + countE e xs := rfl

theorem tok_eq_zero {s : GroupSt} (h : s.fpc ≠ .payload) : tok s = 0 := by
  unfold tok
  cases hf : s.fpc <;> first | rfl | exact absurd hf h

theorem count_invariant (es : List Ev) :
    ∀ s0 s : GroupSt, runTrace s0 es = some s →
    countE .fSecLock es + tok s0 = countE .fPayload es + tok s ∧
    s.payloads = s0.payloads + countE .fPayload es := by
  induction es with
  | nil =>
    intro s0 s hr
    rw [runTrace] at hr
    injection hr with h2
    subst h2
    exact ⟨rfl, rfl⟩
  | cons e es ih =>
    intro s0 s hr
    rw [runTrace] at hr
    cases hst : step s0 e with
    | none => rw [hst] at hr; exact absurd hr (by simp)
    | some s1 =>
      rw [hst] at hr
      obtain ⟨ih1, ih2⟩ := ih s1 s hr
      rw [countE_cons, countE_cons]
      cases e with
      | fSecLock =>
        simp only [step] at hst
        split_ifs at hst with hc
        injection hst with hs2
        subst hs2
        have h0 : tok s0 = 0 := tok_eq_zero (by rw [hc.1]; decide)
        have h1 :
            tok ({ s0 with sec := { s0.sec with writer := true }, fpc := FPC.payload } : GroupSt) = 1 :=
          rfl
        rw [h1] at ih1
        dsimp only at ih2
        have eSL : (if Ev.fSecLock = Ev.fSecLock then 1 else 0) = 1 := rfl
        have ePL : (if Ev.fSecLock = Ev.fPayload then 1 else 0) = 0 := rfl
        rw [eSL, ePL]
        exact ⟨by omega, by omega⟩
      | fPayload =>
        simp only [step] at hst
        split_ifs at hst with hc
        injection hst with hs2
        subst hs2
        have h0 : tok s0 = 1 := by unfold tok; rw [hc]
        have h1 :
            tok ({ s0 with payloads := s0.payloads + 1, fpc := FPC.priUnlock } : GroupSt) = 0 :=
          rfl
        rw [h1] at ih1
        dsimp only at ih2
        have eSL : (if Ev.fPayload = Ev.fSecLock then 1 else 0) = 0 := rfl
        have ePL : (if Ev.fPayload = Ev.fPayload then 1 else 0) = 1 := rfl
        rw [eSL, ePL]
        exact ⟨by omega, by omega⟩
      | fPriUnlock =>
        simp only [step] at hst
        split_ifs at hst with hc
        injection hst with hs2
        subst hs2
        have h0 : tok s0 = 0 := tok_eq_zero (by rw [hc]; decide)
        have h1 :
            tok ({ s0 with pri := { s0.pri with writer := false }, fpc := FPC.priLock } : GroupSt) = 0 :=
          rfl
        rw [h1] at ih1
        dsimp only at ih2
        have eSL : (if Ev.fPriUnlock = Ev.fSecLock then 1 else 0) = 0 := rfl
        have ePL : (if Ev.fPriUnlock = Ev.fPayload then 1 else 0) = 0 := rfl
        rw [eSL, ePL]
        exact ⟨by omega, by omega⟩
      | fPriLock =>
        simp only [step] at hst
        split_ifs at hst with hc
        injection hst with hs2
        subst hs2
        have h0 : tok s0 = 0 := tok_eq_zero (by rw [hc.1]; decide)
        have h1 :
            tok ({ s0 with pri := { s0.pri with writer := true }, fpc := FPC.secUnlock } : GroupSt) = 0 :=
          rfl
        rw [h1] at ih1
        dsimp only at ih2
        have eSL : (if Ev.fPriLock = Ev.fSecLock then 1 else 0) = 0 := rfl
        have ePL : (if Ev.fPriLock = Ev.fPayload then 1 else 0) = 0 := rfl
        rw [eSL, ePL]
        exact ⟨by omega, by omega⟩
      | fSecUnlock =>
        simp only [step] at hst
        split_ifs at hst with hc
        injection hst with hs2
        subst hs2
        have h0 : tok s0 = 0 := tok_eq_zero (by rw [hc]; decide)
        have h1 :
            tok ({ s0 with sec := { s0.sec with writer := false }, fpc := FPC.secLock } : GroupSt) = 0 :=
          rfl
        rw [h1] at ih1
        dsimp only at ih2
        have eSL : (if Ev.fSecUnlock = Ev.fSecLock then 1 else 0) = 0 := rfl
        have ePL : (if Ev.fSecUnlock = Ev.fPayload then 1 else 0) = 0 := rfl
        rw [eSL, ePL]
        exact ⟨by omega, by omega⟩
      | rSecRLock r =>
        have hfpc := runner_step_fpc (Or.inl rfl) hst
        have hpay := runner_step_payloads (Or.inl rfl) hst
        have htok : tok s1 = tok s0 := tok_congr hfpc
        have eSL : (if Ev.rSecRLock r = Ev.fSecLock then 1 else 0) = 0 := rfl
        have ePL : (if Ev.rSecRLock r = Ev.fPayload then 1 else 0) = 0 := rfl
        rw [eSL, ePL]
        exact ⟨by omega, by omega⟩
      | rSecRUnlock r =>
        have hfpc := runner_step_fpc (Or.inr (Or.inl rfl)) hst
        have hpay := runner_step_payloads (Or.inr (Or.inl rfl)) hst
        have htok : tok s1 = tok s0 := tok_congr hfpc
        have eSL : (if Ev.rSecRUnlock r = Ev.fSecLock then 1 else 0) = 0 := rfl
        have ePL : (if Ev.rSecRUnlock r = Ev.fPayload then 1 else 0) = 0 := rfl
        rw [eSL, ePL]
        exact ⟨by omega, by omega⟩
      | rPriRLock r =>
        have hfpc := runner_step_fpc (Or.inr (Or.inr (Or.inl rfl))) hst
        have hpay := runner_step_payloads (Or.inr (Or.inr (Or.inl rfl))) hst
        have htok : tok s1 = tok s0 := tok_congr hfpc
        have eSL : (if Ev.rPriRLock r = Ev.fSecLock then 1 else 0) = 0 := rfl
        have ePL : (if Ev.rPriRLock r = Ev.fPayload then 1 else 0) = 0 := rfl
        rw [eSL, ePL]
        exact ⟨by omega, by omega⟩
      | rPriRUnlock r =>
        have hfpc := runner_step_fpc (Or.inr (Or.inr (Or.inr rfl))) hst
        have hpay := runner_step_payloads (Or.inr (Or.inr (Or.inr rfl))) hst
        have htok : tok s1 = tok s0 := tok_congr hfpc
        have eSL : (if Ev.rPriRUnlock r = Ev.fSecLock then 1 else 0) = 0 := rfl
        have ePL : (if Ev.rPriRUnlock r = Ev.fPayload then 1 else 0) = 0 := rfl
        rw [eSL, ePL]
        exact ⟨by omega, by omega⟩

/-- C8: for every interleaving of `Run` and `Flush` steps from the
initial FlushGroup state: (1) a caller can pass the secondary section
(arrive) only while no flush is fencing or in progress, so callers
arriving during the fencing phase are blocked until the next flush;
(2) a caller is released from the primary lock (and so `Run` can
return) only inside an open flush window whose payload has already
executed — the trace ends with that flush's `fPayload` followed by no
other payload and no flush boundary, so every `Run` that arrived before
the fence returns only after that flush completed the payload `F`;
(3) payloads never outnumber flush fence acquisitions — `F` runs at
most once per `Flush` regardless of the number of pending requesters —
and the payload counter equals the number of payload events. -/
theorem flushGroup_ordering (n : Nat) (es : List Ev) (s : GroupSt)
    (h : runTrace (initGroup n) es = some s) :
    (∀ r s2, step s (.rSecRLock r) = some s2 → s.fpc = .secLock) ∧
    (∀ r s2, step s (.rPriRLock r) = some s2 →
      s.fpc = .priLock ∧ ∃ es1 es2, es = es1 ++ .fPayload :: es2 ∧ critFree es2) ∧
    countE .fPayload es ≤ countE .fSecLock es ∧
    s.payloads = countE .fPayload es := by
  have hinv : WriterInv s := writerInv_runTrace (writerInv_init n) h
  obtain ⟨hcount1, hcount2⟩ := count_invariant es (initGroup n) s h
  refine ⟨?_, ?_, ?_, ?_⟩
  · intro r s2 hst
    simp only [step] at hst
    split_ifs at hst with hc
    by_contra hne
    exact absurd (hinv.2.mpr hne) (by rw [hc.2]; decide)
  · intro r s2 hst
    simp only [step] at hst
    split_ifs at hst with hc
    have hfpc : s.fpc = .priLock := hinv.1.mp hc.2
    refine ⟨hfpc, ?_⟩
    rcases hist_payload es (initGroup n) s h (Or.inr hfpc) with hgood | ⟨hbad, _⟩
    · exact hgood
    · rcases hbad with h2 | h2 <;> exact absurd h2 (by simp [initGroup])
  · have : tok (initGroup n) = 0 := rfl
    omega
  · have : (initGroup n).payloads = 0 := rfl
    omega

/-- C8 witness: one runner arrives (secondary section), the flusher
fences, runs the payload and releases the primary lock; the runner's
primary RLock is then enabled, and the ordering theorem applies to this
concrete reachable state. -/
theorem flushGroup_ordering_witness :
    (∀ r s2, step ⟨⟨true, 0⟩, ⟨false, 0⟩, [.priRLock], .priLock, 1⟩ (.rSecRLock r) = some s2 →
      (⟨⟨true, 0⟩, ⟨false, 0⟩, [.priRLock], .priLock, 1⟩ : GroupSt).fpc = .secLock) ∧
    (∀ r s2, step ⟨⟨true, 0⟩, ⟨false, 0⟩, [.priRLock], .priLock, 1⟩ (.rPriRLock r) = some s2 →
      (⟨⟨true, 0⟩, ⟨false, 0⟩, [.priRLock], .priLock, 1⟩ : GroupSt).fpc = .priLock ∧
      ∃ es1 es2,
        [Ev.rSecRLock 0, Ev.rSecRUnlock 0, Ev.fSecLock, Ev.fPayload, Ev.fPriUnlock] =
          es1 ++ .fPayload :: es2 ∧ critFree es2) ∧
    countE .fPayload [Ev.rSecRLock 0, Ev.rSecRUnlock 0, Ev.fSecLock, Ev.fPayload, Ev.fPriUnlock] ≤
      countE .fSecLock [Ev.rSecRLock 0, Ev.rSecRUnlock 0, Ev.fSecLock, Ev.fPayload, Ev.fPriUnlock] ∧
    (⟨⟨true, 0⟩, ⟨false, 0⟩, [.priRLock], .priLock, 1⟩ : GroupSt).payloads =
      countE .fPayload [Ev.rSecRLock 0, Ev.rSecRUnlock 0, Ev.fSecLock, Ev.fPayload, Ev.fPriUnlock] :=
  flushGroup_ordering 1
    [Ev.rSecRLock 0, Ev.rSecRUnlock 0, Ev.fSecLock, Ev.fPayload, Ev.fPriUnlock]
    ⟨⟨true, 0⟩, ⟨false, 0⟩, [.priRLock], .priLock, 1⟩ (by decide)
end GoTools
